import Mathlib

/-!
Verification of the ApiQR module of apiscout (src/apiscout/ApiQR.py).

The module renders a one-dimensional feature vector into a two-dimensional
grid ordered along a Hilbert space-filling curve, with scalar weights
mapped to RGB colors.  Two-dimensional square numpy integer arrays are
embedded as index functions `Nat → Nat → Nat` together with an explicit
side length; entries outside `[0, side) × [0, side)` are irrelevant.
Python floats are embedded as rationals, Python exceptions as `Except`,
and the unguarded recursion of `__hilbertCurve` as a fuel-indexed
function whose `none` result models non-termination.
-/

namespace ApiQR

/-- A square numpy integer array, embedded as its index function:
`g i j` is the entry at row `i`, column `j`. -/
abbrev Grid := Nat → Nat → Nat

/-- Embedding of numpy `rot90` (rotate 90 degrees counter-clockwise) for an
`m × m` array: entry `(i, j)` of the rotation is entry `(j, m-1-i)` of `t`. -/
def rot90 (m : Nat) (t : Grid) : Grid := fun i j => t j (m - 1 - i)

/-- Embedding of numpy `rot90` with second argument `-1`
(rotate 90 degrees clockwise) for an `m × m` array. -/
def rot90cw (m : Nat) (t : Grid) : Grid := fun i j => t (m - 1 - j) i

/-- Embedding of numpy `flipud` (reverse the row order) for an `m × m` array. -/
def flipud (m : Nat) (t : Grid) : Grid := fun i j => t (m - 1 - i) j

/-- Scalar addition `t + c` on a numpy array. -/
def addScalar (t : Grid) (c : Nat) : Grid := fun i j => t i j + c

/-- Embedding of `np.vstack(map(np.hstack, [[a, b], [d, c]]))`: the 2 × 2
block matrix with quadrants of side `m`, top row `[a, b]`, bottom row
`[d, c]`. -/
def block (m : Nat) (a b d c : Grid) : Grid := fun i j =>
  if i < m then
    (if j < m then a i j else b i (j - m))
  else
    (if j < m then d (i - m) j else c (i - m) (j - m))

/-- `ApiQR.__hilbertCurve` (ApiQR.py lines 123-134) specialised to the
arguments `n = 2 ^ k` on which its recursion is intended to run, indexed by
the exponent: `hilbertCurvePow k` is the `2^k × 2^k` array
`__hilbertCurve(2^k)`.  Base case `n == 1`: `np.zeros((1, 1))`.  Step, with
`t = __hilbertCurve(n // 2)` of side `2^k` and `t.size = 2^k * 2^k`:
`a = np.flipud(np.rot90(t))`, `b = t + t.size`, `c = t + t.size*2`,
`d = np.flipud(np.rot90(t, -1)) + t.size*3`, assembled as
`np.vstack(map(np.hstack, [[a, b], [d, c]]))`. -/
def hilbertCurvePow : Nat → Grid
  | 0 => fun _ _ => 0
  | k+1 =>
    block (2^k)
      (flipud (2^k) (rot90 (2^k) (hilbertCurvePow k)))
      (addScalar (hilbertCurvePow k) (2^k * 2^k))
      (addScalar (flipud (2^k) (rot90cw (2^k) (hilbertCurvePow k))) (2^k * 2^k * 3))
      (addScalar (hilbertCurvePow k) (2^k * 2^k * 2))

/-- `ApiQR.__hilbertCurve` (ApiQR.py lines 123-134) for an arbitrary
argument `n`, embedded with explicit recursion fuel: the function performs
no validation of `n` and recurses on `n // 2` until it reaches `1`, so for
`n < 1` the Python recursion never terminates, which the embedding models
by returning `none` for every amount of fuel.  The result pairs the side
length of the produced array with the array itself (for `n` not a power of
two the side is smaller than `n`). -/
def hilbertCurveFuel : Nat → Nat → Option (Nat × Grid)
  | 0, _ => none
  | fuel+1, n =>
    if n = 1 then some (1, fun _ _ => 0)
    else
      match hilbertCurveFuel fuel (n / 2) with
      | none => none
      | some (m, t) =>
        some (2 * m,
          block m (flipud m (rot90 m t)) (addScalar t (m * m))
            (addScalar (flipud m (rot90cw m t)) (m * m * 3))
            (addScalar t (m * m * 2)))

/-- Proof helper (not part of the source): the grid position at which the
value `x` occurs in `hilbertCurvePow k`, computed by inverting the
quadrant construction. -/
def hilbertPos : Nat → Nat → Nat × Nat
  | 0, _ => (0, 0)
  | k+1, x =>
    if x < 2^k * 2^k then
      ((hilbertPos k x).2, (hilbertPos k x).1)
    else if x < 2^k * 2^k * 2 then
      ((hilbertPos k (x - 2^k * 2^k)).1, (hilbertPos k (x - 2^k * 2^k)).2 + 2^k)
    else if x < 2^k * 2^k * 3 then
      ((hilbertPos k (x - 2^k * 2^k * 2)).1 + 2^k,
       (hilbertPos k (x - 2^k * 2^k * 2)).2 + 2^k)
    else
      (2 * 2^k - 1 - (hilbertPos k (x - 2^k * 2^k * 3)).2,
       2^k - 1 - (hilbertPos k (x - 2^k * 2^k * 3)).1)

/-- Two grid positions are Euclidean-adjacent: their coordinates differ by
exactly 1 in exactly one component and by 0 in the other. -/
def adjacent (p q : Nat × Nat) : Prop :=
  (p.1 = q.1 ∧ (p.2 + 1 = q.2 ∨ q.2 + 1 = p.2)) ∨
  (p.2 = q.2 ∧ (p.1 + 1 = q.1 ∨ q.1 + 1 = p.1))

instance (p q : Nat × Nat) : Decidable (adjacent p q) := by
  unfold adjacent; infer_instance

/-- Modelled from the spec: `ApiQRContext.colors_white`, the sentinel color
for absent values ("conventionally white, e.g. (255,255,255)");
ApiQRContext.py is not among the sources. -/
def colors_white : ℤ × ℤ × ℤ := (255, 255, 255)

/-- A Python value passed as a weight: a bool, or a number (ints and floats
are merged into one numeric embedding, as Python compares them
numerically and `1 == 1.0`). -/
inductive PyNum where
  | bool (b : Bool)
  | num (q : ℚ)

/-- Python `int()` applied to a rational: truncation toward zero. -/
def pyInt (q : ℚ) : ℤ := if 0 ≤ q then ⌊q⌋ else ⌈q⌉

/-- One channel of the interpolation branch of `ApiQR.__mapColor`
(ApiQR.py lines 105-110): `int((1 - alpha) * 255 + alpha * channel)` with
`alpha = max(min(value, 1), 0)`. -/
def mapChan (q : ℚ) (c : ℤ) : ℤ :=
  pyInt ((1 - max (min q 1) 0) * 255 + max (min q 1) 0 * (c : ℚ))

/-- `ApiQR.__mapColor` (ApiQR.py lines 102-110).  `value is True or
value == 1 or value == 1.0` returns the base color unchanged; `value is
False or value == 0 or value == 0.0` returns the white sentinel from the
context; otherwise the value is clamped to [0,1] and each of the three
channels is interpolated and truncated by `int()`. -/
def mapColor (value : PyNum) (color : ℤ × ℤ × ℤ) : ℤ × ℤ × ℤ :=
  match value with
  | .bool true => color
  | .bool false => colors_white
  | .num q =>
    if q = 1 then color
    else if q = 0 then colors_white
    else (mapChan q color.1, mapChan q color.2.1, mapChan q color.2.2)

/-- Scalar restatement of `__mapColor` on numeric input, per channel
(proof helper). -/
def chanVal (q : ℚ) (c : ℤ) : ℤ :=
  if q = 1 then c else if q = 0 then 255 else mapChan q c

/-- Embedding of `sum(([e] * r for e in v), [])` (ApiQR.py line 58): each
element of the list repeated `r` times consecutively, in order. -/
def repeatEach {α : Type} (r : Nat) : List α → List α
  | [] => []
  | x :: xs => List.replicate r x ++ repeatEach r xs

/-- `ApiQR.__vectorToHilbert` (ApiQR.py lines 116-121).  Line 118 first
probes `np.array(vector)[0].shape` to find the element size, which raises
IndexError on an empty vector before the curve is ever computed; the
embedding returns `none` for that error path (for a nonempty vector the
probe only affects the numpy shape axis, never the values).  It then
computes `__hilbertCurve(int(len(vector) ** 0.5))` (the truncated integer
square root of the length) and re-indexes the vector by the resulting
index array.  `np.digitize(idx, range(len(vector)), right=True)` is the
identity on every index below `len(vector)`, and every entry of the curve
array is below it, so the resulting grid holds `vector[g i j]` at
`(i, j)`. -/
def vectorToHilbert {α : Type} (d : α) (v : List α) : Option (Nat × (Nat → Nat → α)) :=
  if v.length = 0 then none
  else
    match hilbertCurveFuel (v.length + 1) (Nat.sqrt v.length) with
    | none => none
    | some (m, g) => some (m, fun i j => v.getD (g i j) d)

/-- The pixel grid computed by `ApiQR.exportPng` (ApiQR.py lines 56-61)
before image serialisation: the vector is mapped to colors with
`map(self.__mapColor, self.vector, self.context.colors)` (pairwise over
the two lists), each color is repeated `4 ** scale_factor` times
consecutively, and the result is reordered by `__vectorToHilbert` (the
final `np.int8` cast and PIL call only serialise this grid). -/
def exportPngGrid (vector : List PyNum) (colors : List (ℤ × ℤ × ℤ)) (scale : Nat) :
    Option (Nat × (Nat → Nat → ℤ × ℤ × ℤ)) :=
  vectorToHilbert (0, 0, 0) (repeatEach (4 ^ scale) (List.zipWith mapColor vector colors))

/-- Stated from the spec's words, for comparison with `exportPngGrid`:
first Hilbert-order the `N × N` grid of mapped colors (`N = 2^k`), then
replicate each logical cell into an `upsampleFactor × upsampleFactor`
block of identical pixels (nearest-neighbor upsampling,
`upsampleFactor = 2^s`). -/
def upsampleAfterGrid (vector : List PyNum) (colors : List (ℤ × ℤ × ℤ)) (k s : Nat) :
    Nat → Nat → ℤ × ℤ × ℤ :=
  fun i j =>
    (List.zipWith mapColor vector colors).getD
      (hilbertCurvePow k (i / 2 ^ s) (j / 2 ^ s)) (0, 0, 0)

/-- Parameter list of `ApiQR.__init__` (ApiQR.py line 45) after `self`:
each parameter name with whether it has a default value. -/
def initParams : List (String × Bool) := [("winapi1024_filepath", false), ("vector", true)]

/-- The keyword arguments of the constructor call in `ApiQR.__add__`
(ApiQR.py line 141): `ApiQR(vector=..., context=...)`. -/
def addCallKwargs : List String := ["vector", "context"]

/-- Python call binding for a call made with keyword arguments only: the
call succeeds iff every supplied keyword names a declared parameter and
every parameter without a default receives an argument; otherwise the
interpreter raises TypeError before the body runs. -/
def bindKwargs (params : List (String × Bool)) (kwargs : List String) : Bool :=
  kwargs.all (fun kw => params.any (fun p => p.1 == kw)) &&
  params.all (fun p => p.2 || kwargs.contains p.1)

/-- The exceptions `ApiQR.__add__` can raise. -/
inductive AddError where
  | valueErrorNotApiQR
  | valueErrorContext
  | typeErrorBadConstructorCall

/-- `ApiQR.__add__` (ApiQR.py lines 136-141): checks that the operand is an
ApiQR and that the contexts agree, then evaluates
`ApiQR(vector=list(map(operator.add, self.vector, other.vector)),
context=self.context)`; that constructor call is bound against the
parameters of `__init__`. -/
def apiQRAdd (isApiQR : Bool) (sameContext : Bool) (v w : List ℚ) :
    Except AddError (List ℚ) :=
  if !isApiQR then .error .valueErrorNotApiQR
  else if !sameContext then .error .valueErrorContext
  else if bindKwargs initParams addCallKwargs then .ok (List.zipWith (· + ·) v w)
  else .error .typeErrorBadConstructorCall

lemma hilbertCurvePow_succ (k i j : Nat) :
    hilbertCurvePow (k+1) i j =
      if i < 2^k then
        (if j < 2^k then hilbertCurvePow k j i
         else hilbertCurvePow k i (j - 2^k) + 2^k * 2^k)
      else
        (if j < 2^k then
            hilbertCurvePow k (2^k - 1 - j) (2^k - 1 - (i - 2^k)) + 2^k * 2^k * 3
         else hilbertCurvePow k (i - 2^k) (j - 2^k) + 2^k * 2^k * 2) := by
  simp only [hilbertCurvePow, block, flipud, rot90, rot90cw, addScalar]
  by_cases hi : i < 2^k <;> by_cases hj : j < 2^k <;> simp only [hi, hj, if_true, if_false]
  · congr 1
    omega

lemma hc_lt (k : Nat) : ∀ i j, i < 2^k → j < 2^k → hilbertCurvePow k i j < 2^k * 2^k := by
  induction k with
  | zero => intro i j hi hj; simp [hilbertCurvePow]
  | succ k ih =>
    intro i j hi hj
    have hM : 2^(k+1) = 2 * 2^k := by rw [pow_succ]; ring
    have h4 : (2 * 2^k) * (2 * 2^k) = 4 * (2^k * 2^k) := by ring
    rw [hilbertCurvePow_succ]
    by_cases h1 : i < 2^k <;> by_cases h2 : j < 2^k <;> simp only [h1, h2, if_true, if_false]
    · have := ih j i h2 h1
      rw [hM]; omega
    · have := ih i (j - 2^k) h1 (by omega)
      rw [hM]; omega
    · have hp : 0 < 2^k := Nat.pos_pow_of_pos k (by norm_num)
      have := ih (2^k - 1 - j) (2^k - 1 - (i - 2^k)) (by omega) (by omega)
      rw [hM]; omega
    · have := ih (i - 2^k) (j - 2^k) (by omega) (by omega)
      rw [hM]; omega

lemma pos_lt (k : Nat) : ∀ x, x < 2^k * 2^k →
    (hilbertPos k x).1 < 2^k ∧ (hilbertPos k x).2 < 2^k := by
  induction k with
  | zero => intro x hx; simp [hilbertPos]
  | succ k ih =>
    intro x hx
    have hM : 2^(k+1) = 2 * 2^k := by rw [pow_succ]; ring
    have h4 : 2^(k+1) * 2^(k+1) = 4 * (2^k * 2^k) := by rw [hM]; ring
    have hp : 0 < 2^k := Nat.pos_pow_of_pos k (by norm_num)
    rw [h4] at hx
    simp only [hilbertPos]
    split_ifs with h1 h2 h3
    · have := ih x h1
      simp only
      omega
    · have := ih (x - 2^k * 2^k) (by omega)
      simp only
      omega
    · have := ih (x - 2^k * 2^k * 2) (by omega)
      simp only
      omega
    · have := ih (x - 2^k * 2^k * 3) (by omega)
      simp only
      omega

lemma hc_pos (k : Nat) : ∀ x, x < 2^k * 2^k →
    hilbertCurvePow k (hilbertPos k x).1 (hilbertPos k x).2 = x := by
  induction k with
  | zero => intro x hx; simp [hilbertPos, hilbertCurvePow]; omega
  | succ k ih =>
    intro x hx
    have hM : 2^(k+1) = 2 * 2^k := by rw [pow_succ]; ring
    have h4 : 2^(k+1) * 2^(k+1) = 4 * (2^k * 2^k) := by rw [hM]; ring
    have hp : 0 < 2^k := Nat.pos_pow_of_pos k (by norm_num)
    rw [h4] at hx
    simp only [hilbertPos]
    split_ifs with h1 h2 h3
    · obtain ⟨hb1, hb2⟩ := pos_lt k x h1
      dsimp only
      rw [hilbertCurvePow_succ]
      simp only [hb1, hb2, if_true]
      exact ih x h1
    · obtain ⟨hb1, hb2⟩ := pos_lt k (x - 2^k * 2^k) (by omega)
      dsimp only
      rw [hilbertCurvePow_succ]
      rw [if_pos hb1, if_neg (by omega), Nat.add_sub_cancel]
      have := ih (x - 2^k * 2^k) (by omega)
      omega
    · obtain ⟨hb1, hb2⟩ := pos_lt k (x - 2^k * 2^k * 2) (by omega)
      dsimp only
      rw [hilbertCurvePow_succ]
      rw [if_neg (by omega), if_neg (by omega), Nat.add_sub_cancel, Nat.add_sub_cancel]
      have := ih (x - 2^k * 2^k * 2) (by omega)
      omega
    · obtain ⟨hb1, hb2⟩ := pos_lt k (x - 2^k * 2^k * 3) (by omega)
      dsimp only
      rw [hilbertCurvePow_succ]
      rw [if_neg (by omega), if_pos (by omega)]
      rw [show 2^k - 1 - (2^k - 1 - (hilbertPos k (x - 2^k * 2^k * 3)).1)
            = (hilbertPos k (x - 2^k * 2^k * 3)).1 from by omega,
          show 2^k - 1 - (2 * 2^k - 1 - (hilbertPos k (x - 2^k * 2^k * 3)).2 - 2^k)
            = (hilbertPos k (x - 2^k * 2^k * 3)).2 from by omega]
      have := ih (x - 2^k * 2^k * 3) (by omega)
      omega

lemma pos_hc (k : Nat) : ∀ i j, i < 2^k → j < 2^k →
    hilbertPos k (hilbertCurvePow k i j) = (i, j) := by
  induction k with
  | zero =>
    intro i j hi hj
    interval_cases i
    interval_cases j
    simp [hilbertPos, hilbertCurvePow]
  | succ k ih =>
    intro i j hi hj
    have hM : 2^(k+1) = 2 * 2^k := by rw [pow_succ]; ring
    have hp : 0 < 2^k := Nat.pos_pow_of_pos k (by norm_num)
    rw [hilbertCurvePow_succ]
    by_cases h1 : i < 2^k <;> by_cases h2 : j < 2^k <;>
      simp only [h1, h2, if_true, if_false]
    · -- quadrant a
      have hv := hc_lt k j i h2 h1
      simp only [hilbertPos]
      rw [if_pos hv, ih j i h2 h1]
    · -- quadrant b
      have hj2 : j - 2^k < 2^k := by omega
      have hv := hc_lt k i (j - 2^k) h1 hj2
      simp only [hilbertPos]
      rw [if_neg (by omega), if_pos (by omega), Nat.add_sub_cancel, ih i (j - 2^k) h1 hj2]
      dsimp only
      simp only [Prod.mk.injEq, true_and, and_true]
      omega
    · -- quadrant d
      have ha : 2^k - 1 - j < 2^k := by omega
      have hb : 2^k - 1 - (i - 2^k) < 2^k := by omega
      have hv := hc_lt k (2^k - 1 - j) (2^k - 1 - (i - 2^k)) ha hb
      simp only [hilbertPos]
      rw [if_neg (by omega), if_neg (by omega), if_neg (by omega),
          Nat.add_sub_cancel, ih _ _ ha hb]
      dsimp only
      simp only [Prod.mk.injEq, true_and, and_true]
      omega
    · -- quadrant c
      have ha : i - 2^k < 2^k := by omega
      have hb : j - 2^k < 2^k := by omega
      have hv := hc_lt k (i - 2^k) (j - 2^k) ha hb
      simp only [hilbertPos]
      rw [if_neg (by omega), if_neg (by omega), if_pos (by omega),
          Nat.add_sub_cancel, ih _ _ ha hb]
      dsimp only
      simp only [Prod.mk.injEq, true_and, and_true]
      omega

lemma pos_endpoints (k : Nat) :
    hilbertPos k 0 = (0, 0) ∧ hilbertPos k (2^k * 2^k - 1) = (2^k - 1, 0) := by
  induction k with
  | zero => simp [hilbertPos]
  | succ k ih =>
    have hM : 2^(k+1) = 2 * 2^k := by rw [pow_succ]; ring
    have h4 : 2^(k+1) * 2^(k+1) = 4 * (2^k * 2^k) := by rw [hM]; ring
    have hp : 0 < 2^k := Nat.pos_pow_of_pos k (by norm_num)
    have hq : 0 < 2^k * 2^k := Nat.mul_pos hp hp
    constructor
    · simp only [hilbertPos]
      rw [if_pos hq, ih.1]
    · rw [h4]
      simp only [hilbertPos]
      rw [if_neg (by omega), if_neg (by omega), if_neg (by omega),
          show 4 * (2^k * 2^k) - 1 - 2^k * 2^k * 3 = 2^k * 2^k - 1 from by omega, ih.2]
      dsimp only
      simp only [Prod.mk.injEq, true_and, and_true]
      omega

lemma pos_adj (k : Nat) : ∀ x, x + 1 < 2^k * 2^k →
    adjacent (hilbertPos k x) (hilbertPos k (x + 1)) := by
  induction k with
  | zero => intro x hx; norm_num at hx
  | succ k ih =>
    intro x hx
    have hM : 2^(k+1) = 2 * 2^k := by rw [pow_succ]; ring
    have h4 : 2^(k+1) * 2^(k+1) = 4 * (2^k * 2^k) := by rw [hM]; ring
    have hp : 0 < 2^k := Nat.pos_pow_of_pos k (by norm_num)
    have hq : 0 < 2^k * 2^k := Nat.mul_pos hp hp
    rw [h4] at hx
    by_cases c1 : x + 1 < 2^k * 2^k
    · -- both in quadrant a
      have h0 : x < 2^k * 2^k := by omega
      have hadj := ih x c1
      simp only [hilbertPos]
      rw [if_pos h0, if_pos c1]
      simp only [adjacent] at hadj ⊢
      omega
    · by_cases c2 : x + 1 = 2^k * 2^k
      · -- boundary a → b
        have hx0 : x = 2^k * 2^k - 1 := by omega
        rw [c2, hx0]
        simp only [hilbertPos]
        rw [if_pos (show 2^k * 2^k - 1 < 2^k * 2^k by omega),
            if_neg (show ¬ 2^k * 2^k < 2^k * 2^k by omega),
            if_pos (show 2^k * 2^k < 2^k * 2^k * 2 by omega),
            Nat.sub_self, (pos_endpoints k).1, (pos_endpoints k).2]
        simp only [adjacent, true_and, and_true]
        omega
      · by_cases c3 : x + 1 < 2^k * 2^k * 2
        · -- both in quadrant b
          have h0 : ¬ x < 2^k * 2^k := by omega
          have hadj := ih (x - 2^k * 2^k) (by omega)
          simp only [hilbertPos]
          rw [if_neg h0, if_pos (show x < 2^k * 2^k * 2 by omega),
              if_neg (show ¬ x + 1 < 2^k * 2^k by omega), if_pos c3,
              show x + 1 - 2^k * 2^k = (x - 2^k * 2^k) + 1 by omega]
          simp only [adjacent] at hadj ⊢
          omega
        · by_cases c4 : x + 1 = 2^k * 2^k * 2
          · -- boundary b → c
            have hx0 : x = 2^k * 2^k * 2 - 1 := by omega
            rw [c4, hx0]
            simp only [hilbertPos]
            rw [if_neg (show ¬ 2^k * 2^k * 2 - 1 < 2^k * 2^k by omega),
                if_pos (show 2^k * 2^k * 2 - 1 < 2^k * 2^k * 2 by omega),
                show 2^k * 2^k * 2 - 1 - 2^k * 2^k = 2^k * 2^k - 1 by omega,
                if_neg (show ¬ 2^k * 2^k * 2 < 2^k * 2^k by omega),
                if_neg (show ¬ 2^k * 2^k * 2 < 2^k * 2^k * 2 by omega),
                if_pos (show 2^k * 2^k * 2 < 2^k * 2^k * 3 by omega),
                Nat.sub_self, (pos_endpoints k).1, (pos_endpoints k).2]
            simp only [adjacent, true_and, and_true]
            omega
          · by_cases c5 : x + 1 < 2^k * 2^k * 3
            · -- both in quadrant c
              have hadj := ih (x - 2^k * 2^k * 2) (by omega)
              simp only [hilbertPos]
              rw [if_neg (show ¬ x < 2^k * 2^k by omega),
                  if_neg (show ¬ x < 2^k * 2^k * 2 by omega),
                  if_pos (show x < 2^k * 2^k * 3 by omega),
                  if_neg (show ¬ x + 1 < 2^k * 2^k by omega),
                  if_neg (show ¬ x + 1 < 2^k * 2^k * 2 by omega),
                  if_pos c5,
                  show x + 1 - 2^k * 2^k * 2 = (x - 2^k * 2^k * 2) + 1 by omega]
              simp only [adjacent] at hadj ⊢
              omega
            · by_cases c6 : x + 1 = 2^k * 2^k * 3
              · -- boundary c → d
                have hx0 : x = 2^k * 2^k * 3 - 1 := by omega
                rw [c6, hx0]
                simp only [hilbertPos]
                rw [if_neg (show ¬ 2^k * 2^k * 3 - 1 < 2^k * 2^k by omega),
                    if_neg (show ¬ 2^k * 2^k * 3 - 1 < 2^k * 2^k * 2 by omega),
                    if_pos (show 2^k * 2^k * 3 - 1 < 2^k * 2^k * 3 by omega),
                    show 2^k * 2^k * 3 - 1 - 2^k * 2^k * 2 = 2^k * 2^k - 1 by omega,
                    if_neg (show ¬ 2^k * 2^k * 3 < 2^k * 2^k by omega),
                    if_neg (show ¬ 2^k * 2^k * 3 < 2^k * 2^k * 2 by omega),
                    if_neg (show ¬ 2^k * 2^k * 3 < 2^k * 2^k * 3 by omega),
                    Nat.sub_self, (pos_endpoints k).1, (pos_endpoints k).2]
                simp only [adjacent, true_and, and_true]
                omega
              · -- both in quadrant d
                have hadj := ih (x - 2^k * 2^k * 3) (by omega)
                have pb := pos_lt k (x - 2^k * 2^k * 3) (by omega)
                have qb := pos_lt k ((x - 2^k * 2^k * 3) + 1) (by omega)
                simp only [hilbertPos]
                rw [if_neg (show ¬ x < 2^k * 2^k by omega),
                    if_neg (show ¬ x < 2^k * 2^k * 2 by omega),
                    if_neg (show ¬ x < 2^k * 2^k * 3 by omega),
                    if_neg (show ¬ x + 1 < 2^k * 2^k by omega),
                    if_neg (show ¬ x + 1 < 2^k * 2^k * 2 by omega),
                    if_neg (show ¬ x + 1 < 2^k * 2^k * 3 by omega),
                    show x + 1 - 2^k * 2^k * 3 = (x - 2^k * 2^k * 3) + 1 by omega]
                simp only [adjacent] at hadj ⊢
                omega

lemma div_reflect (a b j : Nat) (hb : 0 < b) (hj : j < a * b) :
    (a * b - 1 - j) / b = a - 1 - j / b := by
  have hq : j / b < a := (Nat.div_lt_iff_lt_mul hb).2 hj
  have hmod : b * (j / b) + j % b = j := Nat.div_add_mod j b
  have hr : j % b < b := Nat.mod_lt _ hb
  have h1 : b * (a - 1 - j / b) + b * (j / b) + b = b * a := by
    have h2 : (a - 1 - j / b) + (j / b) + 1 = a := by omega
    calc b * (a - 1 - j / b) + b * (j / b) + b
        = b * ((a - 1 - j / b) + (j / b) + 1) := by ring
      _ = b * a := by rw [h2]
  have hcomm : a * b = b * a := Nat.mul_comm a b
  have hkey : a * b - 1 - j = b * (a - 1 - j / b) + (b - 1 - j % b) := by omega
  rw [hkey, Nat.mul_add_div hb, Nat.div_eq_of_lt (show b - 1 - j % b < b by omega), Nat.add_zero]

lemma hc_div (s : Nat) : ∀ k i j, i < 2^(k+s) → j < 2^(k+s) →
    hilbertCurvePow (k+s) i j / (2^s * 2^s) = hilbertCurvePow k (i / 2^s) (j / 2^s) := by
  have hpows : (0:Nat) < 2^s := Nat.pos_pow_of_pos s (by norm_num)
  intro k
  induction k with
  | zero =>
    intro i j hi hj
    rw [Nat.zero_add] at hi hj ⊢
    simp only [hilbertCurvePow]
    exact Nat.div_eq_of_lt (hc_lt s i j hi hj)
  | succ k ih =>
    intro i j hi hj
    have e : k + 1 + s = (k + s) + 1 := by omega
    rw [e] at hi hj ⊢
    have hks : 2^(k+s) = 2^k * 2^s := pow_add 2 k s
    have hM : 2^((k+s)+1) = 2 * 2^(k+s) := by rw [pow_succ]; ring
    have hpk : (0:Nat) < 2^k := Nat.pos_pow_of_pos k (by norm_num)
    have hpks : (0:Nat) < 2^(k+s) := Nat.pos_pow_of_pos (k+s) (by norm_num)
    have hD : 2^(k+s) * 2^(k+s) = (2^k * 2^k) * (2^s * 2^s) := by rw [hks]; ring
    have hDp : (0:Nat) < 2^s * 2^s := Nat.mul_pos hpows hpows
    have hiff : (i / 2^s < 2^k) ↔ i < 2^(k+s) := by
      rw [Nat.div_lt_iff_lt_mul hpows, ← pow_add]
    have hjff : (j / 2^s < 2^k) ↔ j < 2^(k+s) := by
      rw [Nat.div_lt_iff_lt_mul hpows, ← pow_add]
    rw [hilbertCurvePow_succ, hilbertCurvePow_succ]
    by_cases hi2 : i < 2^(k+s) <;> by_cases hj2 : j < 2^(k+s)
    · -- quadrant a
      rw [if_pos hi2, if_pos hj2, if_pos (hiff.2 hi2), if_pos (hjff.2 hj2)]
      exact ih j i hj2 hi2
    · -- quadrant b
      rw [if_pos hi2, if_neg hj2, if_pos (hiff.2 hi2),
          if_neg (fun h => hj2 (hjff.1 h))]
      rw [hD, Nat.add_mul_div_right _ _ hDp]
      have hjb : j - 2^(k+s) < 2^(k+s) := by omega
      rw [ih i (j - 2^(k+s)) hi2 hjb]
      congr 2
      rw [show j - 2^(k+s) = j - 2^s * 2^k from by rw [hks, Nat.mul_comm],
          Nat.sub_mul_div j (2^s) (2^k) (by rw [← Nat.mul_comm, ← hks]; omega)]
    · -- quadrant d
      rw [if_neg hi2, if_pos hj2, if_neg (fun h => hi2 (hiff.1 h)),
          if_pos (hjff.2 hj2)]
      have hD3 : 2^(k+s) * 2^(k+s) * 3 = (2^k * 2^k * 3) * (2^s * 2^s) := by
        rw [hks]; ring
      rw [hD3, Nat.add_mul_div_right _ _ hDp]
      have ha : 2^(k+s) - 1 - j < 2^(k+s) := by omega
      have hb : 2^(k+s) - 1 - (i - 2^(k+s)) < 2^(k+s) := by omega
      rw [ih _ _ ha hb]
      congr 2
      · rw [show 2^(k+s) - 1 - j = 2^k * 2^s - 1 - j from by rw [hks],
            div_reflect (2^k) (2^s) j hpows (by rw [← hks]; omega)]
      · rw [show 2^(k+s) - 1 - (i - 2^(k+s)) = 2^k * 2^s - 1 - (i - 2^(k+s)) from by rw [hks],
            div_reflect (2^k) (2^s) (i - 2^(k+s)) hpows (by rw [← hks]; omega)]
        congr 1
        rw [show i - 2^(k+s) = i - 2^s * 2^k from by rw [hks, Nat.mul_comm],
            Nat.sub_mul_div i (2^s) (2^k) (by rw [← Nat.mul_comm, ← hks]; omega)]
    · -- quadrant c
      rw [if_neg hi2, if_neg hj2, if_neg (fun h => hi2 (hiff.1 h)),
          if_neg (fun h => hj2 (hjff.1 h))]
      have hD2 : 2^(k+s) * 2^(k+s) * 2 = (2^k * 2^k * 2) * (2^s * 2^s) := by
        rw [hks]; ring
      rw [hD2, Nat.add_mul_div_right _ _ hDp]
      have ha : i - 2^(k+s) < 2^(k+s) := by omega
      have hb : j - 2^(k+s) < 2^(k+s) := by omega
      rw [ih _ _ ha hb]
      congr 2
      · rw [show i - 2^(k+s) = i - 2^s * 2^k from by rw [hks, Nat.mul_comm],
            Nat.sub_mul_div i (2^s) (2^k) (by rw [← Nat.mul_comm, ← hks]; omega)]
      · rw [show j - 2^(k+s) = j - 2^s * 2^k from by rw [hks, Nat.mul_comm],
            Nat.sub_mul_div j (2^s) (2^k) (by rw [← Nat.mul_comm, ← hks]; omega)]


lemma hilbertCurveFuel_zero (fuel : Nat) : hilbertCurveFuel fuel 0 = none := by
  induction fuel with
  | zero => rfl
  | succ f ih => simp [hilbertCurveFuel, ih]

lemma hilbertCurveFuel_pow : ∀ fuel t, t < fuel →
    hilbertCurveFuel fuel (2^t) = some (2^t, hilbertCurvePow t) := by
  intro fuel
  induction fuel with
  | zero => intro t ht; omega
  | succ f ih =>
    intro t ht
    match t with
    | 0 => simp [hilbertCurveFuel, hilbertCurvePow]
    | t+1 =>
      have h2 : 2^(t+1) ≠ 1 := by
        have : (2:Nat)^(t+1) ≥ 2 := by
          calc (2:Nat) = 2^1 := by norm_num
            _ ≤ 2^(t+1) := Nat.pow_le_pow_right (by norm_num) (by omega)
        omega
      have hdiv : 2^(t+1) / 2 = 2^t := by
        rw [pow_succ]; exact Nat.mul_div_cancel _ (by norm_num)
      simp only [hilbertCurveFuel]
      rw [if_neg h2, hdiv, ih t (by omega)]
      have hside : 2 * 2^t = 2^(t+1) := by rw [pow_succ]; ring
      show some (2 * 2^t,
          block (2^t) (flipud (2^t) (rot90 (2^t) (hilbertCurvePow t)))
            (addScalar (hilbertCurvePow t) (2^t * 2^t))
            (addScalar (flipud (2^t) (rot90cw (2^t) (hilbertCurvePow t))) (2^t * 2^t * 3))
            (addScalar (hilbertCurvePow t) (2^t * 2^t * 2)))
        = some (2^(t+1), hilbertCurvePow (t+1))
      rw [hside]
      rfl

lemma hilbertCurveFuel_log : ∀ fuel n, 1 ≤ n → n ≤ fuel →
    ∃ g, hilbertCurveFuel fuel n = some (2 ^ Nat.log 2 n, g) := by
  intro fuel
  induction fuel with
  | zero => intro n h1 h2; omega
  | succ f ih =>
    intro n h1 h2
    by_cases hn : n = 1
    · subst hn
      refine ⟨fun _ _ => 0, ?_⟩
      simp [hilbertCurveFuel, Nat.log_one_right]
    · have hn2 : 2 ≤ n := by omega
      obtain ⟨g, hg⟩ := ih (n / 2) (by omega) (by omega)
      have hlog : Nat.log 2 n = Nat.log 2 (n / 2) + 1 := by
        have hd := Nat.log_div_base 2 n
        have hpos := Nat.log_pos (by norm_num) hn2
        omega
      have hpow : 2 ^ Nat.log 2 n = 2 * 2 ^ Nat.log 2 (n / 2) := by
        rw [hlog, pow_succ]; ring
      rw [hpow]
      simp only [hilbertCurveFuel]
      rw [if_neg hn, hg]
      exact ⟨_, rfl⟩

lemma repeatEach_length {α : Type} (r : Nat) (v : List α) :
    (repeatEach r v).length = r * v.length := by
  induction v with
  | nil => simp [repeatEach]
  | cons x xs ih =>
    simp only [repeatEach, List.length_append, List.length_replicate, ih, List.length_cons]
    ring

lemma repeatEach_getD {α : Type} (r : Nat) (hr : 0 < r) (v : List α) (d : α) :
    ∀ x, x < r * v.length → (repeatEach r v).getD x d = v.getD (x / r) d := by
  induction v with
  | nil => intro x hx; simp at hx
  | cons a xs ih =>
    intro x hx
    simp only [List.length_cons] at hx
    simp only [repeatEach]
    by_cases hxr : x < r
    · rw [List.getD_append _ _ _ _ (by simpa using hxr),
          List.getD_eq_getElem _ _ (by simpa using hxr), List.getElem_replicate,
          Nat.div_eq_of_lt hxr]
      rfl
    · have hlen : x - r < r * xs.length := by
        have : r * (xs.length + 1) = r * xs.length + r := by ring
        omega
      rw [List.getD_append_right _ _ _ _ (by simpa using Nat.le_of_not_lt hxr),
          List.length_replicate, ih (x - r) hlen]
      have hdiv : x / r = (x - r) / r + 1 := by
        have hs : (x - r * 1) / r = x / r - 1 := Nat.sub_mul_div x r 1 (by omega)
        have hple : 1 ≤ x / r := (Nat.one_le_div_iff hr).2 (by omega)
        rw [Nat.mul_one] at hs
        omega
      rw [hdiv]
      rfl


lemma clamp_eq (q : ℚ) (h0 : 0 ≤ q) (h1 : q ≤ 1) : max (min q 1) 0 = q := by
  rw [min_eq_left h1, max_eq_left h0]

lemma pyInt_of_nonneg (q : ℚ) (h : 0 ≤ q) : pyInt q = ⌊q⌋ := if_pos h

lemma mapColor_num_eq (q : ℚ) (c : ℤ × ℤ × ℤ) :
    mapColor (.num q) c = (chanVal q c.1, chanVal q c.2.1, chanVal q c.2.2) := by
  simp only [mapColor, chanVal, colors_white]
  split_ifs <;> rfl

lemma interp_nonneg (q : ℚ) (c : ℤ) (h0 : 0 ≤ q) (h1 : q ≤ 1) (hc : 0 ≤ c) :
    0 ≤ (1 - q) * 255 + q * (c : ℚ) := by
  have hcq : (0:ℚ) ≤ (c:ℚ) := by exact_mod_cast hc
  nlinarith

lemma mapChan_eq_floor (q : ℚ) (c : ℤ) (h0 : 0 ≤ q) (h1 : q ≤ 1) (hc : 0 ≤ c) :
    mapChan q c = ⌊(1 - q) * 255 + q * (c : ℚ)⌋ := by
  unfold mapChan
  rw [clamp_eq q h0 h1, pyInt_of_nonneg _ (interp_nonneg q c h0 h1 hc)]

lemma chan_le_255 (q : ℚ) (c : ℤ) (h0 : 0 ≤ q) (h1 : q ≤ 1) (hc0 : 0 ≤ c)
    (hc : c ≤ 255) : mapChan q c ≤ 255 := by
  rw [mapChan_eq_floor q c h0 h1 hc0]
  have hcq : (c:ℚ) ≤ 255 := by exact_mod_cast hc
  have hle : (1 - q) * 255 + q * (c:ℚ) ≤ 255 := by nlinarith
  calc ⌊(1 - q) * 255 + q * (c:ℚ)⌋ ≤ ⌊(255:ℚ)⌋ := Int.floor_le_floor hle
    _ = 255 := by norm_num

lemma chan_ge (q : ℚ) (c : ℤ) (h0 : 0 ≤ q) (h1 : q ≤ 1) (hc0 : 0 ≤ c)
    (hc : c ≤ 255) : c ≤ mapChan q c := by
  rw [mapChan_eq_floor q c h0 h1 hc0, Int.le_floor]
  have hcq : (c:ℚ) ≤ 255 := by exact_mod_cast hc
  nlinarith

lemma chan_antitone (a b : ℚ) (c : ℤ) (h0 : 0 ≤ a) (hab : a ≤ b) (hb : b ≤ 1)
    (hc0 : 0 ≤ c) (hc : c ≤ 255) : mapChan b c ≤ mapChan a c := by
  rw [mapChan_eq_floor a c h0 (by linarith) hc0, mapChan_eq_floor b c (by linarith) hb hc0]
  apply Int.floor_le_floor
  have hcq : (c:ℚ) ≤ 255 := by exact_mod_cast hc
  nlinarith

lemma chanVal_between (a b : ℚ) (c : ℤ) (h0 : 0 ≤ a) (hab : a < b) (hb : b ≤ 1)
    (hc0 : 0 ≤ c) (hc : c ≤ 255) :
    chanVal b c ≤ chanVal a c ∧ chanVal a c ≤ 255 := by
  have ha1 : a ≠ 1 := by intro h; rw [h] at hab; linarith
  by_cases ha0 : a = 0
  · rw [chanVal, chanVal, if_neg ha1, if_pos ha0]
    refine ⟨?_, le_refl _⟩
    by_cases hb1 : b = 1
    · rw [if_pos hb1]; exact hc
    · rw [if_neg hb1, if_neg (by rw [ha0] at hab; exact ne_of_gt hab)]
      exact chan_le_255 b c (by linarith) hb hc0 hc
  · have hapos : 0 < a := lt_of_le_of_ne h0 (Ne.symm ha0)
    rw [chanVal, chanVal, if_neg ha1, if_neg ha0]
    by_cases hb1 : b = 1
    · exact ⟨by rw [if_pos hb1]; exact chan_ge a c h0 (by linarith) hc0 hc,
        chan_le_255 a c h0 (by linarith) hc0 hc⟩
    · rw [if_neg hb1, if_neg (by intro h; rw [h] at hab; linarith)]
      exact ⟨chan_antitone a b c h0 (le_of_lt hab) hb hc0 hc,
        chan_le_255 a c h0 (by linarith) hc0 hc⟩

lemma chan_lt_255 (q : ℚ) (c : ℤ) (h0 : 0 < q) (h1 : q < 1) (hc : c ≤ 254) :
    mapChan q c < 255 := by
  unfold mapChan
  rw [clamp_eq q (le_of_lt h0) (le_of_lt h1)]
  by_cases hs : 0 ≤ (1 - q) * 255 + q * (c:ℚ)
  · rw [pyInt, if_pos hs, Int.floor_lt]
    have hcq : (c:ℚ) ≤ 254 := by exact_mod_cast hc
    push_cast
    nlinarith
  · rw [pyInt, if_neg hs]
    have hneg : (1 - q) * 255 + q * (c:ℚ) < 0 := lt_of_not_ge hs
    have hceil : ⌈(1 - q) * 255 + q * (c:ℚ)⌉ ≤ 0 := by
      rw [Int.ceil_le]
      exact_mod_cast hneg.le
    omega


lemma vectorToHilbert_eq {α : Type} (d : α) (v : List α) (m : Nat) (g : Grid)
    (hv : v.length ≠ 0)
    (h : hilbertCurveFuel (v.length + 1) (Nat.sqrt v.length) = some (m, g)) :
    vectorToHilbert d v = some (m, fun i j => v.getD (g i j) d) := by
  unfold vectorToHilbert
  rw [if_neg hv, h]

/-- C1: for every power of two `n = 2^k`, `__hilbertCurve(n)` returns an
`n × n` grid in which every integer in `[0, n*n)` appears at exactly one
position of the grid (a permutation with no repeats and no omissions). -/
theorem hilbert_permutation (k x : Nat) (hx : x < 2^k * 2^k) :
    hilbertCurveFuel (k+1) (2^k) = some (2^k, hilbertCurvePow k) ∧
    ∃! p : Nat × Nat, p.1 < 2^k ∧ p.2 < 2^k ∧ hilbertCurvePow k p.1 p.2 = x := by
  refine ⟨hilbertCurveFuel_pow (k+1) k (by omega), ?_⟩
  refine ⟨hilbertPos k x, ⟨(pos_lt k x hx).1, (pos_lt k x hx).2, hc_pos k x hx⟩, ?_⟩
  rintro ⟨i, j⟩ ⟨hi, hj, hv⟩
  have h := pos_hc k i j hi hj
  rw [hv] at h
  exact h.symm

theorem hilbert_permutation_witness :
    3 < 2^1 * 2^1 ∧
    (hilbertCurveFuel 2 (2^1) = some (2^1, hilbertCurvePow 1) ∧
     ∃! p : Nat × Nat, p.1 < 2^1 ∧ p.2 < 2^1 ∧ hilbertCurvePow 1 p.1 p.2 = 3) :=
  ⟨by decide, hilbert_permutation 1 3 (by decide)⟩

/-- C2: for every power of two `n = 2^k` and consecutive values `x` and
`x+1` in `[0, n*n)`, the grid positions of `x` and `x+1` in the grid
returned by `__hilbertCurve(n)` are Euclidean-adjacent: the coordinates
differ by exactly 1 in exactly one component and by 0 in the other. -/
theorem hilbert_continuity (k x i₁ j₁ i₂ j₂ : Nat) (hx : x + 1 < 2^k * 2^k)
    (hi₁ : i₁ < 2^k) (hj₁ : j₁ < 2^k) (hi₂ : i₂ < 2^k) (hj₂ : j₂ < 2^k)
    (hv₁ : hilbertCurvePow k i₁ j₁ = x) (hv₂ : hilbertCurvePow k i₂ j₂ = x + 1) :
    hilbertCurveFuel (k+1) (2^k) = some (2^k, hilbertCurvePow k) ∧
    adjacent (i₁, j₁) (i₂, j₂) := by
  refine ⟨hilbertCurveFuel_pow (k+1) k (by omega), ?_⟩
  have h1 := pos_hc k i₁ j₁ hi₁ hj₁
  have h2 := pos_hc k i₂ j₂ hi₂ hj₂
  rw [hv₁] at h1
  rw [hv₂] at h2
  rw [← h1, ← h2]
  exact pos_adj k x hx

theorem hilbert_continuity_witness :
    (0 + 1 < 2^1 * 2^1 ∧ 0 < 2^1 ∧ 0 < 2^1 ∧ 0 < 2^1 ∧ 1 < 2^1 ∧
     hilbertCurvePow 1 0 0 = 0 ∧ hilbertCurvePow 1 0 1 = 0 + 1) ∧
    (hilbertCurveFuel 2 (2^1) = some (2^1, hilbertCurvePow 1) ∧ adjacent (0, 0) (0, 1)) :=
  ⟨by decide, hilbert_continuity 1 0 0 0 0 1 (by decide) (by decide) (by decide)
    (by decide) (by decide) (by decide) (by decide)⟩

/-- C3 counterexample: at value 1/2 and base color (0,0,0), the code
computes channel `int(127.5) = 127` (truncation), while the claimed
rounding `round(127.5)` gives 128, so `__mapColor` does not round. -/
theorem mapColor_not_rounded :
    mapColor (.num (1/2)) (0, 0, 0) = (127, 127, 127) ∧
    round ((1 - max (min ((1:ℚ)/2) 1) 0) * 255 + max (min ((1:ℚ)/2) 1) 0 * ((0:ℤ) : ℚ))
      = (128 : ℤ) := by
  constructor
  · rw [mapColor_num_eq]
    have e1 : (1:ℚ)/2 ≠ 1 := by norm_num
    have e0 : (1:ℚ)/2 ≠ 0 := by norm_num
    simp only [chanVal, e1, e0, if_false]
    norm_num [mapChan, pyInt, min_def, max_def]
  · norm_num [round_eq, min_def, max_def]

/-- C3 (amended): for every value strictly between 0 and 1 and nonnegative
integer channels, `__mapColor` returns in each channel
`int((1-alpha)*255 + alpha*baseChannel)` with `alpha = value` — the
interpolated value truncated (floored, the operand being nonnegative),
not rounded to the nearest integer. -/
theorem mapColor_truncates (q : ℚ) (c : ℤ × ℤ × ℤ) (h0 : 0 < q) (h1 : q < 1)
    (hc1 : 0 ≤ c.1) (hc2 : 0 ≤ c.2.1) (hc3 : 0 ≤ c.2.2) :
    mapColor (.num q) c =
      (⌊(1 - q) * 255 + q * (c.1 : ℚ)⌋, ⌊(1 - q) * 255 + q * (c.2.1 : ℚ)⌋,
       ⌊(1 - q) * 255 + q * (c.2.2 : ℚ)⌋) := by
  rw [mapColor_num_eq]
  have e1 : q ≠ 1 := ne_of_lt h1
  have e0 : q ≠ 0 := ne_of_gt h0
  simp only [chanVal, e1, e0, if_false]
  rw [mapChan_eq_floor q c.1 h0.le h1.le hc1, mapChan_eq_floor q c.2.1 h0.le h1.le hc2,
      mapChan_eq_floor q c.2.2 h0.le h1.le hc3]

theorem mapColor_truncates_witness :
    ((0:ℚ) < 1/3 ∧ (1/3:ℚ) < 1 ∧ (0:ℤ) ≤ 30 ∧ (0:ℤ) ≤ 60 ∧ (0:ℤ) ≤ 90) ∧
    mapColor (.num (1/3)) (30, 60, 90) =
      (⌊(1 - (1:ℚ)/3) * 255 + (1/3) * ((30:ℤ) : ℚ)⌋,
       ⌊(1 - (1:ℚ)/3) * 255 + (1/3) * ((60:ℤ) : ℚ)⌋,
       ⌊(1 - (1:ℚ)/3) * 255 + (1/3) * ((90:ℤ) : ℚ)⌋) :=
  ⟨⟨by norm_num, by norm_num, by norm_num, by norm_num, by norm_num⟩,
   mapColor_truncates (1/3) (30, 60, 90) (by norm_num) (by norm_num)
     (by norm_num) (by norm_num) (by norm_num)⟩

/-- C4 counterexample: for n = 3, which is not a power of two, the curve
generator raises nothing and returns a grid (of side 2), contradicting the
claim that it fails with InvalidSizeError before producing any output. -/
theorem hilbertCurve_returns_grid_for_three :
    (hilbertCurveFuel 4 3).map Prod.fst = some 2 ∧ (hilbertCurveFuel 4 3).isSome = true := by
  constructor
  · rfl
  · rfl

/-- C4 (amended): `__hilbertCurve` performs no validation and no
InvalidSizeError exists in the code: for `n < 1` its recursion on `n // 2`
never terminates (no grid, but no InvalidSizeError either), and for every
`n ≥ 1` — power of two or not — it returns a grid of side
`2 ^ ⌊log₂ n⌋` without raising. -/
theorem hilbertCurve_no_validation (n fuel : Nat) (h1 : 1 ≤ n) (hf : n ≤ fuel) :
    hilbertCurveFuel fuel 0 = none ∧
    ∃ g, hilbertCurveFuel fuel n = some (2 ^ Nat.log 2 n, g) :=
  ⟨hilbertCurveFuel_zero fuel, hilbertCurveFuel_log fuel n h1 hf⟩

theorem hilbertCurve_no_validation_witness :
    (1 ≤ 3 ∧ 3 ≤ 4) ∧
    (hilbertCurveFuel 4 0 = none ∧ ∃ g, hilbertCurveFuel 4 3 = some (2 ^ Nat.log 2 3, g)) :=
  ⟨⟨by decide, by decide⟩, hilbertCurve_no_validation 3 4 (by decide) (by decide)⟩

/-- C5 counterexample: for a vector of length 15 (not a perfect square),
`__vectorToHilbert` raises nothing and returns a grid of side 2,
contradicting the claim that it fails with NonSquareLengthError and
produces no output grid. -/
theorem vectorToHilbert_nonsquare_returns :
    (vectorToHilbert (0 : ℚ) (List.replicate 15 (0 : ℚ))).map Prod.fst = some 2 := by
  have hsq : Nat.sqrt (List.replicate 15 (0:ℚ)).length = 3 := by
    rw [List.length_replicate]
    norm_num
  unfold vectorToHilbert
  rw [hsq, List.length_replicate]
  rfl

/-- C5 (amended): no squareness check is performed and no
NonSquareLengthError exists in the code: for every vector of length
`L ≥ 1`, perfect square or not, `__vectorToHilbert` computes
`n = int(L ** 0.5)` and returns a grid of side `2 ^ ⌊log₂ n⌋` without
raising. -/
theorem vectorToHilbert_no_check (v : List ℚ) (h : 1 ≤ v.length) :
    ∃ g, vectorToHilbert (0 : ℚ) v = some (2 ^ Nat.log 2 (Nat.sqrt v.length), g) := by
  have hs1 : 1 ≤ Nat.sqrt v.length := Nat.sqrt_pos.2 h
  have hs2 : Nat.sqrt v.length ≤ v.length + 1 :=
    le_trans (Nat.sqrt_le_self v.length) (by omega)
  obtain ⟨g, hg⟩ := hilbertCurveFuel_log (v.length + 1) (Nat.sqrt v.length) hs1 hs2
  exact ⟨_, vectorToHilbert_eq 0 v _ _ (by omega) hg⟩

theorem vectorToHilbert_no_check_witness :
    1 ≤ (List.replicate 2 (0:ℚ)).length ∧
    ∃ g, vectorToHilbert (0:ℚ) (List.replicate 2 (0:ℚ)) =
      some (2 ^ Nat.log 2 (Nat.sqrt (List.replicate 2 (0:ℚ)).length), g) :=
  ⟨by decide, vectorToHilbert_no_check (List.replicate 2 (0:ℚ)) (by decide)⟩

/-- C6: for a vector of length `N*N` (`N = 2^k`) and scale factor `s`, the
pixel grid computed by `exportPng` — each mapped color repeated
`4^s` times consecutively, then reordered by a Hilbert curve of side
`N * 2^s` — equals the grid obtained by first Hilbert-ordering the `N × N`
grid of mapped colors and then replicating each logical cell into a
`2^s × 2^s` block of identical pixels (nearest-neighbor upsampling). -/
theorem exportPng_upsample_equiv (vector : List PyNum) (colors : List (ℤ × ℤ × ℤ))
    (k s i j : Nat) (hv : vector.length = 2^k * 2^k) (hc : colors.length = 2^k * 2^k)
    (hi : i < 2^(k+s)) (hj : j < 2^(k+s)) :
    ∃ g, exportPngGrid vector colors s = some (2^(k+s), g) ∧
      g i j = upsampleAfterGrid vector colors k s i j := by
  have h4pos : (0:Nat) < 4^s := Nat.pos_pow_of_pos s (by norm_num)
  have hcol : (List.zipWith mapColor vector colors).length = 2^k * 2^k := by
    rw [List.length_zipWith, hv, hc, Nat.min_self]
  have h4s : (4:Nat)^s = 2^s * 2^s := by
    rw [show (4:Nat) = 2*2 from rfl, mul_pow]
  have hrep : (repeatEach (4^s) (List.zipWith mapColor vector colors)).length
      = 4^s * (2^k * 2^k) := by
    rw [repeatEach_length, hcol]
  have hee : 2^(k+s) * 2^(k+s) = 4^s * (2^k * 2^k) := by
    rw [h4s, pow_add]; ring
  have hsqrt : Nat.sqrt ((repeatEach (4^s) (List.zipWith mapColor vector colors)).length)
      = 2^(k+s) := by
    rw [hrep, ← hee, Nat.sqrt_eq]
  have hfuel : k + s
      < (repeatEach (4^s) (List.zipWith mapColor vector colors)).length + 1 := by
    have hlt : k + s < 2^(k+s) := Nat.lt_two_pow (k+s)
    have hpos : 0 < 2^(k+s) := Nat.pos_pow_of_pos (k+s) (by norm_num)
    have hle : 2^(k+s) ≤ 2^(k+s) * 2^(k+s) := Nat.le_mul_of_pos_right _ hpos
    omega
  have hfe : hilbertCurveFuel
      ((repeatEach (4 ^ s) (List.zipWith mapColor vector colors)).length + 1)
      (Nat.sqrt ((repeatEach (4 ^ s) (List.zipWith mapColor vector colors)).length))
      = some (2^(k+s), hilbertCurvePow (k+s)) := by
    rw [hsqrt]
    exact hilbertCurveFuel_pow _ _ hfuel
  have hlenpos : (repeatEach (4 ^ s) (List.zipWith mapColor vector colors)).length ≠ 0 := by
    have h1 : (0:Nat) < 2^k := Nat.pos_pow_of_pos k (by norm_num)
    have h2 := Nat.mul_pos h4pos (Nat.mul_pos h1 h1)
    omega
  have hVH := vectorToHilbert_eq ((0:ℤ), (0:ℤ), (0:ℤ))
    (repeatEach (4 ^ s) (List.zipWith mapColor vector colors))
    (2^(k+s)) (hilbertCurvePow (k+s)) hlenpos hfe
  have hval : hilbertCurvePow (k+s) i j
      < 4^s * (List.zipWith mapColor vector colors).length := by
    have := hc_lt (k+s) i j hi hj
    rw [hcol]
    omega
  refine ⟨fun a b => (repeatEach (4 ^ s) (List.zipWith mapColor vector colors)).getD
      (hilbertCurvePow (k+s) a b) ((0:ℤ), (0:ℤ), (0:ℤ)), ?_, ?_⟩
  · exact hVH
  · dsimp only
    rw [repeatEach_getD (4^s) h4pos _ ((0:ℤ), (0:ℤ), (0:ℤ)) _ hval,
        h4s, hc_div s k i j hi hj]
    rfl

theorem exportPng_upsample_equiv_witness :
    ([PyNum.num 1].length = 2^0 * 2^0 ∧ [((10:ℤ), (20:ℤ), (30:ℤ))].length = 2^0 * 2^0 ∧
     0 < 2^(0+0) ∧ 0 < 2^(0+0)) ∧
    ∃ g, exportPngGrid [PyNum.num 1] [((10:ℤ), (20:ℤ), (30:ℤ))] 0 = some (2^(0+0), g) ∧
      g 0 0 = upsampleAfterGrid [PyNum.num 1] [((10:ℤ), (20:ℤ), (30:ℤ))] 0 0 0 0 :=
  ⟨⟨by decide, by decide, by decide, by decide⟩,
   exportPng_upsample_equiv [PyNum.num 1] [((10:ℤ), (20:ℤ), (30:ℤ))] 0 0 0 0
     (by decide) (by decide) (by decide) (by decide)⟩

/-- C7: `__mapColor(1, c)` returns the base color unchanged and
`__mapColor(0, c)` returns the configured white sentinel; the same holds
for the boolean inputs True and False respectively. -/
theorem mapColor_endpoints (c : ℤ × ℤ × ℤ) :
    mapColor (.num 1) c = c ∧ mapColor (.num 0) c = colors_white ∧
    mapColor (.bool true) c = c ∧ mapColor (.bool false) c = colors_white := by
  refine ⟨by norm_num [mapColor], by norm_num [mapColor], rfl, rfl⟩

/-- C8: for `0 ≤ a < b ≤ 1` and base colors with channels in `[0, 255]`,
each channel of `__mapColor(a, c)` lies between 255 and the corresponding
channel of `__mapColor(b, c)` inclusive: the interpolation is monotone
from white toward the base color. -/
theorem mapColor_monotone (a b : ℚ) (c : ℤ × ℤ × ℤ) (h0 : 0 ≤ a) (hab : a < b)
    (hb : b ≤ 1) (hc1 : 0 ≤ c.1) (hc1b : c.1 ≤ 255) (hc2 : 0 ≤ c.2.1)
    (hc2b : c.2.1 ≤ 255) (hc3 : 0 ≤ c.2.2) (hc3b : c.2.2 ≤ 255) :
    ((mapColor (.num b) c).1 ≤ (mapColor (.num a) c).1 ∧ (mapColor (.num a) c).1 ≤ 255) ∧
    ((mapColor (.num b) c).2.1 ≤ (mapColor (.num a) c).2.1 ∧
      (mapColor (.num a) c).2.1 ≤ 255) ∧
    ((mapColor (.num b) c).2.2 ≤ (mapColor (.num a) c).2.2 ∧
      (mapColor (.num a) c).2.2 ≤ 255) := by
  rw [mapColor_num_eq, mapColor_num_eq]
  exact ⟨chanVal_between a b c.1 h0 hab hb hc1 hc1b,
    chanVal_between a b c.2.1 h0 hab hb hc2 hc2b,
    chanVal_between a b c.2.2 h0 hab hb hc3 hc3b⟩

theorem mapColor_monotone_witness :
    ((0:ℚ) ≤ 1/4 ∧ (1/4:ℚ) < 1/2 ∧ (1/2:ℚ) ≤ 1 ∧
     (0:ℤ) ≤ 10 ∧ (10:ℤ) ≤ 255 ∧ (0:ℤ) ≤ 20 ∧ (20:ℤ) ≤ 255 ∧
     (0:ℤ) ≤ 30 ∧ (30:ℤ) ≤ 255) ∧
    (((mapColor (.num (1/2)) (10, 20, 30)).1 ≤ (mapColor (.num (1/4)) (10, 20, 30)).1 ∧
      (mapColor (.num (1/4)) (10, 20, 30)).1 ≤ 255) ∧
     ((mapColor (.num (1/2)) (10, 20, 30)).2.1 ≤ (mapColor (.num (1/4)) (10, 20, 30)).2.1 ∧
      (mapColor (.num (1/4)) (10, 20, 30)).2.1 ≤ 255) ∧
     ((mapColor (.num (1/2)) (10, 20, 30)).2.2 ≤ (mapColor (.num (1/4)) (10, 20, 30)).2.2 ∧
      (mapColor (.num (1/4)) (10, 20, 30)).2.2 ≤ 255)) :=
  ⟨⟨by norm_num, by norm_num, by norm_num, by norm_num, by norm_num, by norm_num,
    by norm_num, by norm_num, by norm_num⟩,
   mapColor_monotone (1/4) (1/2) (10, 20, 30) (by norm_num) (by norm_num) (by norm_num)
     (by norm_num) (by norm_num) (by norm_num) (by norm_num) (by norm_num) (by norm_num)⟩

/-- C9 counterexample: the base color (255,255,255) has every channel in
[0,255], yet at value 1/2 — strictly between 0 and 1 — `__mapColor`
returns exactly the white sentinel, so a non-zero weight can be rendered
as absent and exportHtml takes its sentinel branch for it. -/
theorem mapColor_white_base_collapse :
    (0:ℚ) < 1/2 ∧ ((1:ℚ)/2) < 1 ∧ (0:ℤ) ≤ 255 ∧ (255:ℤ) ≤ 255 ∧
    mapColor (.num (1/2)) (255, 255, 255) = colors_white := by
  refine ⟨by norm_num, by norm_num, by norm_num, by norm_num, ?_⟩
  rw [mapColor_num_eq]
  have e1 : (1:ℚ)/2 ≠ 1 := by norm_num
  have e0 : (1:ℚ)/2 ≠ 0 := by norm_num
  simp only [chanVal, e1, e0, if_false]
  norm_num [mapChan, pyInt, min_def, max_def, colors_white]

/-- C9 (amended): for every value strictly between 0 and 1 and every base
color with channels in [0,255] other than the white sentinel itself,
`__mapColor` returns a color different from the sentinel; when the base
color equals (255,255,255) the interpolation collapses to white. -/
theorem mapColor_present_ne_white (q : ℚ) (c : ℤ × ℤ × ℤ) (h0 : 0 < q) (h1 : q < 1)
    (hc1 : c.1 ≤ 255) (hc2 : c.2.1 ≤ 255) (hc3 : c.2.2 ≤ 255)
    (hne : c ≠ colors_white) : mapColor (.num q) c ≠ colors_white := by
  obtain ⟨x, y, z⟩ := c
  rw [mapColor_num_eq]
  have hq1 : q ≠ 1 := ne_of_lt h1
  have hq0 : q ≠ 0 := ne_of_gt h0
  simp only [chanVal, hq1, hq0, if_false]
  dsimp only at hc1 hc2 hc3 ⊢
  intro hEq
  simp only [colors_white, Prod.mk.injEq] at hEq
  simp only [colors_white] at hne
  obtain ⟨hx255, hy255, hz255⟩ := hEq
  by_cases hxe : x = 255
  · by_cases hye : y = 255
    · have hze : z ≠ 255 := fun hz => hne (by rw [hxe, hye, hz])
      have := chan_lt_255 q z h0 h1 (by omega)
      omega
    · have := chan_lt_255 q y h0 h1 (by omega)
      omega
  · have := chan_lt_255 q x h0 h1 (by omega)
    omega

theorem mapColor_present_ne_white_witness :
    ((0:ℚ) < 1/2 ∧ (1/2:ℚ) < 1 ∧ (0:ℤ) ≤ 255 ∧ (0:ℤ) ≤ 255 ∧ (0:ℤ) ≤ 255 ∧
     ((0:ℤ), (0:ℤ), (0:ℤ)) ≠ colors_white) ∧
    mapColor (.num (1/2)) (0, 0, 0) ≠ colors_white :=
  ⟨⟨by norm_num, by norm_num, by norm_num, by norm_num, by norm_num, by decide⟩,
   mapColor_present_ne_white (1/2) (0, 0, 0) (by norm_num) (by norm_num)
     (by norm_num) (by norm_num) (by norm_num) (by decide)⟩

/-- C10: `__add__` can never return a summed ApiQR: after the type and
context checks pass, it evaluates `ApiQR(vector=..., context=...)`, but
`__init__` accepts no `context` keyword (and requires
`winapi1024_filepath`), so the constructor call raises TypeError and every
addition ends in an exception. -/
theorem apiQRAdd_always_fails (isA sameCtx : Bool) (v w : List ℚ) :
    bindKwargs initParams addCallKwargs = false ∧
    ∃ e, apiQRAdd isA sameCtx v w = Except.error e := by
  refine ⟨by decide, ?_⟩
  cases isA
  · exact ⟨.valueErrorNotApiQR, rfl⟩
  · cases sameCtx
    · exact ⟨.valueErrorContext, rfl⟩
    · exact ⟨.typeErrorBadConstructorCall, rfl⟩

end ApiQR
